import Mathlib

/-!
Verification of the mhash static hash-table construction (mhash.h, mhash_str.h).

The C code is shallowly embedded:
* machine integers (`MHASH_UINT = uint64_t`, `MHASH_INDEX_UINT = uint64_t`,
  `uint16_t`) become `Nat` with explicit `% 2 ^ 64` / `% 2 ^ 16` where the C
  arithmetic can wrap;
* the caller-owned table buffer becomes a `List Nat` of length `table_size`;
* keys (`const void **strings`) become a `List α` for an abstract key type;
* the possibly-NULL pointer arguments of `mhash_init` become explicit `Bool`
  flags, and the `MHash *ph` output becomes an `Option (MHash α)` result
  (`none` when the defensive argument check returns early without writing);
* the unbounded `for(;;)` retry loop of `mhash_init`, which runs while
  `num_hashes < worst_case`, is written with an explicit `remaining`
  argument equal to `worst_case - num_hashes`, decreasing structurally;
* `void *` results of `mhash_check_at` become `Option Nat`: `none` for NULL,
  `some off` for the pointer `(char * )values + off`.

The default build configuration is embedded: `MHASH_MAX_HASHES = 16`,
`MHASH_NO_WORST_CASE` undefined (so the trial ceiling is capped by `count`).
-/

/-- `#define MHASH_FAILED 1`. -/
def MHASH_FAILED : Nat := 1

/-- `#define MHASH_OK 0`. -/
def MHASH_OK : Nat := 0

/-- `#define MHASH_MAX_HASHES 16` (default configuration). -/
def MHASH_MAX_HASHES : Nat := 16

/-- Cardinality of `MHASH_UINT = uint64_t`. -/
def UINT64_CARD : Nat := 2 ^ 64

/-- Cardinality of `uint16_t`. -/
def UINT16_CARD : Nat := 2 ^ 16

/-- `#define MHASH_EMPTY_SLOT ((MHASH_INDEX_UINT)(-1))`, i.e. `2^64 - 1`. -/
def MHASH_EMPTY_SLOT : Nat := 2 ^ 64 - 1

/-- The `MHash` structure of mhash.h.  The `table` pointer together with the
memory it points to is modelled as a `List Nat`. -/
structure MHash (α : Type) where
  table : List Nat
  table_size : Nat
  num_hashes : Nat
  count : Nat
  hash_func : α → Nat → Nat

/-- `mhash__concat`: XOR-fold of `hash_func(s, i)` for `i = 1 .. num_hashes`
(the C `for` loop, left to right, accumulator starting at 0). -/
def mhash__concat {α : Type} (hash_func : α → Nat → Nat) (num_hashes : Nat) (s : α) : Nat :=
  (List.range' 1 num_hashes).foldl (fun combined i => combined ^^^ hash_func s i) 0

/-- The inner placement loop of `mhash_init` (`for (MHASH_UINT i = 0; i < count; ++i)`):
place the keys one by one at `mhash__concat ... % table_size`; `none` models
`ok = 0` (a slot was already occupied), `some t` the fully placed table. -/
def mhash__place {α : Type} (hash_func : α → Nat → Nat) (num_hashes table_size : Nat) :
    List α → Nat → List Nat → Option (List Nat)
  | [], _, table => some table
  | s :: rest, i, table =>
    if table.getD (mhash__concat hash_func num_hashes s % table_size) MHASH_EMPTY_SLOT
        ≠ MHASH_EMPTY_SLOT then none
    else mhash__place hash_func num_hashes table_size rest (i + 1)
      (table.set (mhash__concat hash_func num_hashes s % table_size) i)

/-- The retry loop of `mhash_init` (`for(;;)`), with `remaining` standing for
`worst_case - num_hashes`.  Each iteration first clears every slot to
`MHASH_EMPTY_SLOT`, fails when the ceiling is reached, and otherwise tries
`num_hashes + 1`.  Returns (status, final `ph->num_hashes`, final table). -/
def mhash__loop {α : Type} (hash_func : α → Nat → Nat) (table_size : Nat) (strings : List α) :
    Nat → Nat → Nat × Nat × List Nat
  | num_hashes, 0 => (MHASH_FAILED, num_hashes, List.replicate table_size MHASH_EMPTY_SLOT)
  | num_hashes, remaining + 1 =>
    match mhash__place hash_func (num_hashes + 1) table_size strings 0
        (List.replicate table_size MHASH_EMPTY_SLOT) with
    | some t => (MHASH_OK, num_hashes + 1, t)
    | none => mhash__loop hash_func table_size strings (num_hashes + 1) remaining

/-- The trial ceiling of `mhash_init` in the default configuration:
`size_t worst_case = MHASH_MAX_HASHES; if (worst_case > count) worst_case = count;`
(`MHASH_NO_WORST_CASE` is not defined by default). -/
def mhash_worst_case (count : Nat) : Nat :=
  if MHASH_MAX_HASHES > count then count else MHASH_MAX_HASHES

/-- `mhash_init`.  The three `Bool` flags model NULL-ness of `ph`, `table` and
`strings`; `strings` contents are the `keys` list (`count = keys.length`).
Result: the returned `int` status, and `some` of the written `MHash` record
(`none` when the defensive check returned before writing anything). -/
def mhash_init {α : Type} (ph_null table_null strings_null : Bool)
    (table_size : Nat) (strings : List α) (hash_func : α → Nat → Nat) :
    Nat × Option (MHash α) :=
  if ph_null || table_null || strings_null || table_size == 0 then (MHASH_FAILED, none)
  else
    let count := strings.length
    let r := mhash__loop hash_func table_size strings 0 (mhash_worst_case count)
    (r.1, some ⟨r.2.2, table_size, r.2.1, count, hash_func⟩)

/-- `mhash_entry_pos`: the slot index a key addresses. -/
def mhash_entry_pos {α : Type} (ph : MHash α) (s : α) : Nat :=
  mhash__concat ph.hash_func ph.num_hashes s % ph.table_size

/-- `mhash_entry`: unchecked lookup, returns `ph->table[idx]` verbatim. -/
def mhash_entry {α : Type} (ph : MHash α) (s : α) : Nat :=
  let idx := mhash__concat ph.hash_func ph.num_hashes s % ph.table_size
  ph.table.getD idx MHASH_EMPTY_SLOT

/-- `mhash_check_at`: verified lookup.  `keys` is the `const void **keys`
array, `cmp_func` the comparator (0 means equal, like `strcmp`), and the
result is `none` for NULL or `some (entry * sizeof_value)` for the returned
pointer's byte offset into `values`. -/
def mhash_check_at {α : Type} [Inhabited α] (ph : MHash α) (s : α) (keys : List α)
    (sizeof_value : Nat) (cmp_func : α → α → Int) : Option Nat :=
  let idx := mhash__concat ph.hash_func ph.num_hashes s % ph.table_size
  let entry := ph.table.getD idx MHASH_EMPTY_SLOT
  if entry = MHASH_EMPTY_SLOT then none
  else if cmp_func (keys.getD entry default) s ≠ 0 then none
  else some (entry * sizeof_value)

/-- The 64-bit constant `0x9E3779B97F4A7C15ULL` of mhash_str.h. -/
def MHASH_GOLDEN : Nat := 0x9E3779B97F4A7C15

/-- One iteration of the mixing loop shared by `mhash_str_all` and
`mhash_str_prefix` over a byte `b`:
`h ^ (b + 0x9E3779B97F4A7C15 + (h << 6) + (h >> 2))` in `uint64_t`. -/
def mhash_str_mix (h b : Nat) : Nat :=
  h ^^^ ((b + MHASH_GOLDEN + ((h <<< 6) % UINT64_CARD) + (h >>> 2)) % UINT64_CARD)

/-- `mhash_str_all`: whole-key string hash.  A C string (no interior NUL
byte) is modelled as its list of bytes; the `uint16_t id` parameter wraps
via `% 2 ^ 16`; the result is `h & 0xFFFF`. -/
def mhash_str_all (s : List Nat) (id : Nat) : Nat :=
  let h0 := MHASH_GOLDEN * (id % UINT16_CARD + 1) % UINT64_CARD
  (s.foldl mhash_str_mix h0) % UINT16_CARD

/-- The loop of the bounded-length string hash:
`for (uint16_t i = 0; i <= id+1 && *p; ++i, ++p)`.  The counter `i` is a
`uint16_t`, so the guard compares `i % 2 ^ 16` with `id + 1` (the C `int`
promotion of `id + 1` does not wrap for `id < 2 ^ 16`). -/
def mhash_str_bounded_go (id16 : Nat) : Nat → Nat → List Nat → Nat
  | _, h, [] => h
  | i, h, b :: rest =>
    if i % UINT16_CARD ≤ id16 + 1 then mhash_str_bounded_go id16 (i + 1) (mhash_str_mix h b) rest
    else h

/-- `mhash_str_prefix`: string hash reading a bounded number of leading
bytes, same mixing as `mhash_str_all`. -/
def mhash_str_prefix (s : List Nat) (id : Nat) : Nat :=
  let id16 := id % UINT16_CARD
  let h0 := MHASH_GOLDEN * (id16 + 1) % UINT64_CARD
  mhash_str_bounded_go id16 0 h0 s % UINT16_CARD

/-- The key set of the spec's Scenario B: `"D"` and `"Doodoo"` as byte lists. -/
def scenarioB_keys : List (List Nat) :=
  [[68], [68, 111, 111, 100, 111, 111]]

/-- A trial count `num_hashes` is collision-free for a key set when all keys
address pairwise distinct slots. -/
def collision_free {α : Type} (hash_func : α → Nat → Nat) (num_hashes table_size : Nat)
    (keys : List α) : Prop :=
  ∀ i j (hi : i < keys.length) (hj : j < keys.length), i ≠ j →
    mhash__concat hash_func num_hashes (keys.get ⟨i, hi⟩) % table_size
      ≠ mhash__concat hash_func num_hashes (keys.get ⟨j, hj⟩) % table_size

/-- Modelled after the specification text:
`combined(key, num_hashes) = XOR over hash_id in 1..num_hashes of
hash(key, hash_id)`, built as a right fold of the list of family outputs. -/
def combined_spec {α : Type} (hash_func : α → Nat → Nat) (num_hashes : Nat) (s : α) : Nat :=
  ((List.range' 1 num_hashes).map (fun hash_id => hash_func s hash_id)).foldr
    (fun part acc => part ^^^ acc) 0

/-! ### Helper lemmas about table reads (`List.getD`) -/

lemma tgetD_set_self (l : List Nat) (n a d : Nat) (h : n < l.length) :
    (l.set n a).getD n d = a := by
  simp [List.getD_eq_getElem?_getD, List.getElem?_set_eq_of_lt a h]

lemma tgetD_set_ne (l : List Nat) (m n a d : Nat) (h : m ≠ n) :
    (l.set m a).getD n d = l.getD n d := by
  simp [List.getD_eq_getElem?_getD, List.getElem?_set_ne h]

lemma tgetD_replicate (n m a d : Nat) (h : m < n) :
    (List.replicate n a).getD m d = a := by
  simp [List.getD_eq_getElem?_getD, List.getElem?_replicate, h]

/-! ### Soundness of the inner placement loop -/

/-- If `mhash__place` succeeds then: the table length is unchanged, occupied
slots are preserved, and the slot addressed by the `j`-th key holds `i + j`. -/
lemma mhash__place_sound {α : Type} (hash_func : α → Nat → Nat) (nh ts : Nat)
    (hts : 0 < ts) (keys : List α) :
    ∀ (i : Nat) (table t : List Nat),
      mhash__place hash_func nh ts keys i table = some t →
      table.length = ts →
      i + keys.length ≤ MHASH_EMPTY_SLOT →
      t.length = ts ∧
      (∀ p, p < ts → table.getD p MHASH_EMPTY_SLOT ≠ MHASH_EMPTY_SLOT →
        t.getD p MHASH_EMPTY_SLOT = table.getD p MHASH_EMPTY_SLOT) ∧
      (∀ j (hj : j < keys.length),
        t.getD (mhash__concat hash_func nh (keys.get ⟨j, hj⟩) % ts) MHASH_EMPTY_SLOT = i + j) := by
  induction keys with
  | nil =>
    intro i table t hplace hlen _
    simp only [mhash__place, Option.some.injEq] at hplace
    subst hplace
    exact ⟨hlen, fun p _ _ => rfl, fun j hj => by simp at hj⟩
  | cons s rest ih =>
    intro i table t hplace hlen hbound
    rw [mhash__place] at hplace
    by_cases hocc :
        table.getD (mhash__concat hash_func nh s % ts) MHASH_EMPTY_SLOT ≠ MHASH_EMPTY_SLOT
    · rw [if_pos hocc] at hplace
      exact Option.noConfusion hplace
    · rw [if_neg hocc] at hplace
      push_neg at hocc
      have hlen' : (table.set (mhash__concat hash_func nh s % ts) i).length = ts := by
        rwa [List.length_set]
      have hbound' : (i + 1) + rest.length ≤ MHASH_EMPTY_SLOT := by
        simp only [List.length_cons] at hbound; omega
      obtain ⟨htlen, hpres, hplaced⟩ :=
        ih (i + 1) (table.set (mhash__concat hash_func nh s % ts) i) t hplace hlen' hbound'
      have hidx_lt : mhash__concat hash_func nh s % ts < ts := Nat.mod_lt _ hts
      have hi_ne : i ≠ MHASH_EMPTY_SLOT := by
        simp only [List.length_cons] at hbound; omega
      have hset_self :
          (table.set (mhash__concat hash_func nh s % ts) i).getD
            (mhash__concat hash_func nh s % ts) MHASH_EMPTY_SLOT = i :=
        tgetD_set_self table _ i _ (hlen ▸ hidx_lt)
      refine ⟨htlen, ?_, ?_⟩
      · intro p hp hne
        have hp_ne : mhash__concat hash_func nh s % ts ≠ p := by
          intro he; exact hne (he ▸ hocc)
        have hset : (table.set (mhash__concat hash_func nh s % ts) i).getD p MHASH_EMPTY_SLOT =
            table.getD p MHASH_EMPTY_SLOT := tgetD_set_ne table _ p i _ hp_ne
        rw [hpres p hp (by rw [hset]; exact hne), hset]
      · intro j hj
        match j with
        | 0 =>
          have h1 := hpres (mhash__concat hash_func nh s % ts) hidx_lt
            (by rw [hset_self]; exact hi_ne)
          rw [hset_self] at h1
          show t.getD (mhash__concat hash_func nh s % ts) MHASH_EMPTY_SLOT = i + 0
          rw [h1]
          exact (Nat.add_zero i).symm
        | j + 1 =>
          have hj' : j < rest.length := by simpa using hj
          have h1 := hplaced j hj'
          show t.getD (mhash__concat hash_func nh (rest.get ⟨j, hj'⟩) % ts) MHASH_EMPTY_SLOT
            = i + (j + 1)
          exact h1.trans (by omega)

/-- If every key's slot is still empty in `table` and the keys' slots are
pairwise distinct, the placement loop succeeds. -/
lemma mhash__place_complete {α : Type} (hash_func : α → Nat → Nat) (nh ts : Nat) (keys : List α) :
    ∀ (i : Nat) (table : List Nat),
      (∀ j (hj : j < keys.length),
        table.getD (mhash__concat hash_func nh (keys.get ⟨j, hj⟩) % ts) MHASH_EMPTY_SLOT
          = MHASH_EMPTY_SLOT) →
      (∀ j k (hj : j < keys.length) (hk : k < keys.length), j ≠ k →
        mhash__concat hash_func nh (keys.get ⟨j, hj⟩) % ts
          ≠ mhash__concat hash_func nh (keys.get ⟨k, hk⟩) % ts) →
      ∃ t, mhash__place hash_func nh ts keys i table = some t := by
  induction keys with
  | nil => intro i table _ _; exact ⟨table, rfl⟩
  | cons s rest ih =>
    intro i table hempty hdist
    have h0 : table.getD (mhash__concat hash_func nh s % ts) MHASH_EMPTY_SLOT
        = MHASH_EMPTY_SLOT := hempty 0 (by simp)
    have hempty' : ∀ j (hj : j < rest.length),
        (table.set (mhash__concat hash_func nh s % ts) i).getD
          (mhash__concat hash_func nh (rest.get ⟨j, hj⟩) % ts) MHASH_EMPTY_SLOT
          = MHASH_EMPTY_SLOT := by
      intro j hj
      have hne : mhash__concat hash_func nh s % ts
          ≠ mhash__concat hash_func nh (rest.get ⟨j, hj⟩) % ts :=
        hdist 0 (j + 1) (by simp) (by simpa using hj) (by omega)
      rw [tgetD_set_ne table _ _ i _ hne]
      exact hempty (j + 1) (by simpa using hj)
    have hdist' : ∀ j k (hj : j < rest.length) (hk : k < rest.length), j ≠ k →
        mhash__concat hash_func nh (rest.get ⟨j, hj⟩) % ts
          ≠ mhash__concat hash_func nh (rest.get ⟨k, hk⟩) % ts :=
      fun j k hj hk hne =>
        hdist (j + 1) (k + 1) (by simpa using hj) (by simpa using hk) (by omega)
    obtain ⟨t, ht⟩ := ih (i + 1) (table.set (mhash__concat hash_func nh s % ts) i) hempty' hdist'
    refine ⟨t, ?_⟩
    rw [mhash__place, if_neg (fun h => h h0)]
    exact ht

/-- `mhash__place` never changes the length of the table. -/
lemma mhash__place_length {α : Type} (hash_func : α → Nat → Nat) (nh ts : Nat) (keys : List α) :
    ∀ (i : Nat) (table t : List Nat),
      mhash__place hash_func nh ts keys i table = some t → t.length = table.length := by
  induction keys with
  | nil =>
    intro i table t h
    simp only [mhash__place, Option.some.injEq] at h
    rw [← h]
  | cons s rest ih =>
    intro i table t h
    rw [mhash__place] at h
    by_cases hocc :
        table.getD (mhash__concat hash_func nh s % ts) MHASH_EMPTY_SLOT ≠ MHASH_EMPTY_SLOT
    · rw [if_pos hocc] at h
      exact Option.noConfusion h
    · rw [if_neg hocc] at h
      have := ih (i + 1) _ t h
      rwa [List.length_set] at this

/-! ### The retry loop -/

/-- A successful `mhash__loop` run found its table by a successful placement
at some trial count in `(num_hashes, num_hashes + remaining]`. -/
lemma mhash__loop_ok {α : Type} (hash_func : α → Nat → Nat) (ts : Nat) (keys : List α) :
    ∀ (remaining num_hashes st nh : Nat) (t : List Nat),
      mhash__loop hash_func ts keys num_hashes remaining = (st, nh, t) →
      st = MHASH_OK →
      num_hashes < nh ∧ nh ≤ num_hashes + remaining ∧
      mhash__place hash_func nh ts keys 0 (List.replicate ts MHASH_EMPTY_SLOT) = some t := by
  intro remaining
  induction remaining with
  | zero =>
    intro n st nh t hloop hst
    rw [mhash__loop] at hloop
    simp only [Prod.mk.injEq] at hloop
    obtain ⟨h1, _, _⟩ := hloop
    rw [← h1] at hst
    exact absurd hst (by simp [MHASH_FAILED, MHASH_OK])
  | succ r ih =>
    intro n st nh t hloop hst
    rw [mhash__loop] at hloop
    cases hp : mhash__place hash_func (n + 1) ts keys 0 (List.replicate ts MHASH_EMPTY_SLOT) with
    | some t' =>
      rw [hp] at hloop
      simp only [Prod.mk.injEq] at hloop
      obtain ⟨_, h2, h3⟩ := hloop
      rw [← h2, ← h3]
      exact ⟨by omega, by omega, hp⟩
    | none =>
      rw [hp] at hloop
      obtain ⟨ha, hb, hc⟩ := ih (n + 1) st nh t hloop hst
      exact ⟨by omega, by omega, hc⟩

/-- A failed `mhash__loop` run ends with `num_hashes` at the ceiling, a fully
cleared table, and every trial in range having failed. -/
lemma mhash__loop_failed {α : Type} (hash_func : α → Nat → Nat) (ts : Nat) (keys : List α) :
    ∀ (remaining num_hashes st nh : Nat) (t : List Nat),
      mhash__loop hash_func ts keys num_hashes remaining = (st, nh, t) →
      st = MHASH_FAILED →
      nh = num_hashes + remaining ∧ t = List.replicate ts MHASH_EMPTY_SLOT ∧
      ∀ m, num_hashes < m → m ≤ num_hashes + remaining →
        mhash__place hash_func m ts keys 0 (List.replicate ts MHASH_EMPTY_SLOT) = none := by
  intro remaining
  induction remaining with
  | zero =>
    intro n st nh t hloop _
    rw [mhash__loop] at hloop
    simp only [Prod.mk.injEq] at hloop
    obtain ⟨_, h2, h3⟩ := hloop
    exact ⟨by omega, h3.symm, fun m h1 h2 => absurd h1 (by omega)⟩
  | succ r ih =>
    intro n st nh t hloop hst
    rw [mhash__loop] at hloop
    cases hp : mhash__place hash_func (n + 1) ts keys 0 (List.replicate ts MHASH_EMPTY_SLOT) with
    | some t' =>
      rw [hp] at hloop
      simp only [Prod.mk.injEq] at hloop
      obtain ⟨h1, _, _⟩ := hloop
      rw [← h1] at hst
      exact absurd hst (by simp [MHASH_FAILED, MHASH_OK])
    | none =>
      rw [hp] at hloop
      obtain ⟨h1, h2, h3⟩ := ih (n + 1) st nh t hloop hst
      refine ⟨by omega, h2, ?_⟩
      intro m hm1 hm2
      by_cases hm : m = n + 1
      · rw [hm]; exact hp
      · exact h3 m (by omega) (by omega)

/-- If every trial in range fails, `mhash__loop` reports `MHASH_FAILED`. -/
lemma mhash__loop_all_fail {α : Type} (hash_func : α → Nat → Nat) (ts : Nat) (keys : List α) :
    ∀ (remaining num_hashes : Nat),
      (∀ m, num_hashes < m → m ≤ num_hashes + remaining →
        mhash__place hash_func m ts keys 0 (List.replicate ts MHASH_EMPTY_SLOT) = none) →
      (mhash__loop hash_func ts keys num_hashes remaining).1 = MHASH_FAILED := by
  intro remaining
  induction remaining with
  | zero => intro n _; rw [mhash__loop]
  | succ r ih =>
    intro n hall
    rw [mhash__loop, hall (n + 1) (by omega) (by omega)]
    exact ih (n + 1) (fun m h1 h2 => hall m (by omega) (by omega))

/-- The loop status is always exactly `MHASH_OK` or `MHASH_FAILED`. -/
lemma mhash__loop_status {α : Type} (hash_func : α → Nat → Nat) (ts : Nat) (keys : List α) :
    ∀ (remaining num_hashes : Nat),
      (mhash__loop hash_func ts keys num_hashes remaining).1 = MHASH_OK ∨
      (mhash__loop hash_func ts keys num_hashes remaining).1 = MHASH_FAILED := by
  intro remaining
  induction remaining with
  | zero => intro n; right; rw [mhash__loop]
  | succ r ih =>
    intro n
    rw [mhash__loop]
    cases hp : mhash__place hash_func (n + 1) ts keys 0 (List.replicate ts MHASH_EMPTY_SLOT) with
    | some t => left; rfl
    | none => exact ih (n + 1)

/-- The loop runs at most `remaining` further trials: the final `num_hashes`,
which counts the trials performed, never exceeds `num_hashes + remaining`. -/
lemma mhash__loop_num_hashes_le {α : Type} (hash_func : α → Nat → Nat) (ts : Nat)
    (keys : List α) :
    ∀ (remaining num_hashes : Nat),
      (mhash__loop hash_func ts keys num_hashes remaining).2.1 ≤ num_hashes + remaining := by
  intro remaining
  induction remaining with
  | zero => intro n; rw [mhash__loop]; show n ≤ n + 0; omega
  | succ r ih =>
    intro n
    rw [mhash__loop]
    cases hp : mhash__place hash_func (n + 1) ts keys 0 (List.replicate ts MHASH_EMPTY_SLOT) with
    | some t => show n + 1 ≤ n + (r + 1); omega
    | none =>
      have := ih (n + 1)
      show (mhash__loop hash_func ts keys (n + 1) r).2.1 ≤ n + (r + 1)
      omega

/-- Every trial rewrites the whole buffer: the final table always has
exactly `table_size` slots. -/
lemma mhash__loop_table_length {α : Type} (hash_func : α → Nat → Nat) (ts : Nat)
    (keys : List α) :
    ∀ (remaining num_hashes : Nat),
      ((mhash__loop hash_func ts keys num_hashes remaining).2.2).length = ts := by
  intro remaining
  induction remaining with
  | zero => intro n; rw [mhash__loop]; exact List.length_replicate ts MHASH_EMPTY_SLOT
  | succ r ih =>
    intro n
    rw [mhash__loop]
    cases hp : mhash__place hash_func (n + 1) ts keys 0 (List.replicate ts MHASH_EMPTY_SLOT) with
    | some t =>
      show t.length = ts
      rw [mhash__place_length hash_func (n + 1) ts keys 0 _ t hp]
      exact List.length_replicate ts MHASH_EMPTY_SLOT
    | none => exact ih (n + 1)

/-! ### Unfolding `mhash_init` on valid arguments -/

lemma tgetD_of_lt {α : Type} (l : List α) (n : Nat) (d : α) (h : n < l.length) :
    l.getD n d = l.get ⟨n, h⟩ := by
  simp [List.getD_eq_getElem?_getD, List.getElem?_eq_getElem h]

/-- With non-null arguments and a positive `table_size`, `mhash_init` is the
retry loop run from 0 with the capped ceiling, its results copied into the
structure. -/
lemma mhash_init_valid {α : Type} (ts : Nat) (keys : List α) (hash_func : α → Nat → Nat)
    (hts : 0 < ts) :
    mhash_init false false false ts keys hash_func =
      ((mhash__loop hash_func ts keys 0 (mhash_worst_case keys.length)).1,
       some ⟨(mhash__loop hash_func ts keys 0 (mhash_worst_case keys.length)).2.2, ts,
             (mhash__loop hash_func ts keys 0 (mhash_worst_case keys.length)).2.1,
             keys.length, hash_func⟩) := by
  have hne : ts ≠ 0 := by omega
  have h1 : (false || false || false || (ts == 0)) = false := by simp [hne]
  rw [mhash_init, h1]
  simp only [Bool.false_eq_true, if_false]

/-- Starting from a cleared table, the placement loop succeeds exactly on
collision-free trial counts. -/
lemma mhash__place_succeeds_iff {α : Type} (hash_func : α → Nat → Nat) (nh ts : Nat)
    (keys : List α) (hts : 0 < ts) (hcount : keys.length ≤ MHASH_EMPTY_SLOT) :
    (∃ t, mhash__place hash_func nh ts keys 0 (List.replicate ts MHASH_EMPTY_SLOT) = some t) ↔
      collision_free hash_func nh ts keys := by
  constructor
  · rintro ⟨t, ht⟩
    obtain ⟨_, _, hplaced⟩ := mhash__place_sound hash_func nh ts hts keys 0
      (List.replicate ts MHASH_EMPTY_SLOT) t ht
      (List.length_replicate ts MHASH_EMPTY_SLOT) (by omega)
    intro i j hi hj hne he
    apply hne
    have e1 := hplaced i hi
    have e2 := hplaced j hj
    rw [he] at e1
    rw [e2] at e1
    omega
  · intro hcf
    apply mhash__place_complete hash_func nh ts keys 0 (List.replicate ts MHASH_EMPTY_SLOT)
    · intro j hj
      exact tgetD_replicate ts _ MHASH_EMPTY_SLOT MHASH_EMPTY_SLOT
        (Nat.mod_lt _ hts)
    · exact hcf

lemma foldl_xor_eq (l : List Nat) : ∀ a : Nat,
    l.foldl (fun c p => c ^^^ p) a = a ^^^ l.foldr (fun p acc => p ^^^ acc) 0 := by
  induction l with
  | nil => intro a; simp
  | cons b rest ih =>
    intro a
    simp only [List.foldl_cons, List.foldr_cons]
    rw [ih (a ^^^ b), Nat.xor_assoc]

/-! ### Claim theorems -/

/-- C2: for every key and every `num_hashes ≥ 1` (indeed for every
`num_hashes`), the combined hash equals the XOR-fold of `hash(key, hash_id)`
over `hash_id = 1..num_hashes`, and the index computation used by
construction (`mhash__place`, the placing loop of `mhash_init`) and by the
query operations (`mhash_entry`, `mhash_entry_pos`, `mhash_check_at`) is the
identical function `mhash__concat key num_hashes % table_size`, i.e. exactly
`mhash_entry_pos`. -/
theorem c2_combiner_identical {α : Type} [Inhabited α] (hash_func : α → Nat → Nat)
    (num_hashes table_size : Nat) (s : α) (ph : MHash α) (keys rest : List α)
    (sizeof_value i : Nat) (cmp_func : α → α → Int) (table : List Nat) :
    mhash__concat hash_func num_hashes s = combined_spec hash_func num_hashes s ∧
    mhash_entry_pos ph s = mhash__concat ph.hash_func ph.num_hashes s % ph.table_size ∧
    mhash_entry ph s = ph.table.getD (mhash_entry_pos ph s) MHASH_EMPTY_SLOT ∧
    mhash_check_at ph s keys sizeof_value cmp_func =
      (if ph.table.getD (mhash_entry_pos ph s) MHASH_EMPTY_SLOT = MHASH_EMPTY_SLOT then none
       else if cmp_func (keys.getD (ph.table.getD (mhash_entry_pos ph s) MHASH_EMPTY_SLOT)
          default) s ≠ 0 then none
       else some (ph.table.getD (mhash_entry_pos ph s) MHASH_EMPTY_SLOT * sizeof_value)) ∧
    mhash__place hash_func num_hashes table_size (s :: rest) i table =
      (if table.getD
          (mhash_entry_pos ⟨table, table_size, num_hashes, rest.length + 1, hash_func⟩ s)
          MHASH_EMPTY_SLOT ≠ MHASH_EMPTY_SLOT then none
       else mhash__place hash_func num_hashes table_size rest (i + 1)
         (table.set
           (mhash_entry_pos ⟨table, table_size, num_hashes, rest.length + 1, hash_func⟩ s) i)) := by
  refine ⟨?_, rfl, rfl, rfl, rfl⟩
  have h1 : (List.range' 1 num_hashes).foldl (fun combined i => combined ^^^ hash_func s i) 0
      = ((List.range' 1 num_hashes).map (fun hash_id => hash_func s hash_id)).foldl
          (fun c p => c ^^^ p) 0 :=
    (List.foldl_map _ _ _ _).symm
  rw [mhash__concat, combined_spec, h1, foldl_xor_eq, Nat.zero_xor]

/-- C5: `mhash_check_at` returns NULL when the addressed slot is the empty
sentinel, for every keys array (the sentinel check precedes any access to the
keys or values arrays); when the slot holds `e ≠ sentinel` it returns NULL on
comparator mismatch and the pointer at byte offset `e * sizeof_value`
otherwise — so a foreign key yields NULL unless the comparator deems it equal
to the key stored at the colliding slot. -/
theorem c5_verified_lookup {α : Type} [Inhabited α] (ph : MHash α) (s : α)
    (sizeof_value : Nat) (cmp_func : α → α → Int) :
    (ph.table.getD (mhash_entry_pos ph s) MHASH_EMPTY_SLOT = MHASH_EMPTY_SLOT →
      ∀ keys : List α, mhash_check_at ph s keys sizeof_value cmp_func = none) ∧
    (∀ (keys : List α) (e : Nat),
      ph.table.getD (mhash_entry_pos ph s) MHASH_EMPTY_SLOT = e → e ≠ MHASH_EMPTY_SLOT →
      (cmp_func (keys.getD e default) s ≠ 0 →
        mhash_check_at ph s keys sizeof_value cmp_func = none) ∧
      (cmp_func (keys.getD e default) s = 0 →
        mhash_check_at ph s keys sizeof_value cmp_func = some (e * sizeof_value))) := by
  constructor
  · intro hE keys
    rw [mhash_entry_pos] at hE
    simp only [mhash_check_at]
    rw [hE, if_pos rfl]
  · intro keys e he hne
    rw [mhash_entry_pos] at he
    constructor
    · intro hcmp
      simp only [mhash_check_at]
      rw [he, if_neg hne, if_pos hcmp]
    · intro hcmp
      simp only [mhash_check_at]
      rw [he, if_neg hne, if_neg (fun h => h hcmp)]

/-- C5 witness: a structure whose addressed slot holds the sentinel yields
`none` for a concrete probe. -/
theorem c5_verified_lookup_witness :
    mhash_check_at (⟨[MHASH_EMPTY_SLOT, 0], 2, 1, 2, fun (_ : Nat) _ => 0⟩ : MHash Nat)
      7 [0, 1] 4 (fun a b => if a = b then 0 else 1) = none :=
  (c5_verified_lookup (⟨[MHASH_EMPTY_SLOT, 0], 2, 1, 2, fun (_ : Nat) _ => 0⟩ : MHash Nat)
    7 4 (fun a b => if a = b then 0 else 1)).1 (by decide) [0, 1]

/-- C6 counterexample: with `hash_id = 0` the bounded-length family member
hashes the first TWO bytes, not one: on the key "ab" it differs from the
whole-key hash of the one-byte truncation, and two keys agreeing on their
first byte hash differently. -/
theorem c6_counterexample :
    mhash_str_prefix [97, 98] 0 ≠ mhash_str_all ([97, 98].take (0 + 1)) 0 ∧
    mhash_str_prefix [97, 98] 0 ≠ mhash_str_prefix [97] 0 := by
  decide

lemma mhash_str_bounded_go_eq (id16 : Nat) (hid : id16 + 2 < UINT16_CARD) :
    ∀ (s : List Nat) (i h : Nat), i ≤ id16 + 2 →
      mhash_str_bounded_go id16 i h s = (s.take (id16 + 2 - i)).foldl mhash_str_mix h := by
  intro s
  induction s with
  | nil => intro i h _; rw [mhash_str_bounded_go]; simp
  | cons b rest ih =>
    intro i h hle
    rw [mhash_str_bounded_go]
    by_cases hcond : i ≤ id16 + 1
    · have hmod : i % UINT16_CARD = i := Nat.mod_eq_of_lt (by omega)
      rw [if_pos (by rw [hmod]; exact hcond)]
      rw [ih (i + 1) (mhash_str_mix h b) (by omega)]
      have hs : id16 + 2 - i = (id16 + 2 - (i + 1)) + 1 := by omega
      rw [hs, List.take_succ_cons, List.foldl_cons]
    · have hi : i = id16 + 2 := by omega
      have hmod : i % UINT16_CARD = i := Nat.mod_eq_of_lt (by omega)
      rw [if_neg (by rw [hmod]; omega)]
      rw [hi]
      simp

/-- C6 amended: for every `hash_id` with `hash_id + 2 < 2^16` (so the
`uint16_t` loop counter does not wrap) and every key, `mhash_str_prefix`
depends only on the first `hash_id + 2` bytes of the key (fewer if the key is
shorter) and applies exactly the whole-key mixing to that bounded portion:
it equals `mhash_str_all` of the key truncated to `hash_id + 2` bytes. -/
theorem c6_amended_bounded_portion (s : List Nat) (id : Nat) (hid : id + 2 < UINT16_CARD) :
    mhash_str_prefix s id = mhash_str_all (s.take (id + 2)) id := by
  have hid16 : id % UINT16_CARD = id := Nat.mod_eq_of_lt (by omega)
  simp only [ mhash_str_prefix, mhash_str_all, hid16]
  rw [mhash_str_bounded_go_eq id hid s 0 _ (by omega), Nat.sub_zero]

/-- C6 amended witness: a concrete three-byte key at `hash_id = 0` hashes
like the whole-key hash of its two-byte truncation. -/
theorem c6_amended_bounded_portion_witness :
    mhash_str_prefix [97, 98, 99] 0 = mhash_str_all ([97, 98, 99].take (0 + 2)) 0 :=
  c6_amended_bounded_portion [97, 98, 99] 0 (by decide)

/-- C7: `mhash_init` reports failure as the `MHASH_FAILED` status code (and
through no other mechanism) whenever the structure pointer, the table
pointer, or the keys-array pointer is NULL, or `table_size` is zero. -/
theorem c7_defensive_arguments {α : Type} (ph_null table_null strings_null : Bool)
    (ts : Nat) (keys : List α) (hash_func : α → Nat → Nat)
    (h : ph_null = true ∨ table_null = true ∨ strings_null = true ∨ ts = 0) :
    (mhash_init ph_null table_null strings_null ts keys hash_func).1 = MHASH_FAILED := by
  rw [mhash_init]
  have hc : (ph_null || table_null || strings_null || (ts == 0)) = true := by
    rcases h with h | h | h | h <;> simp [h]
  rw [if_pos hc]

/-- C7 witness: a NULL structure pointer with otherwise sound arguments. -/
theorem c7_defensive_arguments_witness :
    (mhash_init true false false 5 ([] : List Nat) (fun _ _ => 0)).1 = MHASH_FAILED :=
  c7_defensive_arguments true false false 5 [] (fun _ _ => 0) (Or.inl rfl)

/-- C8: construction over the keys "D" and "Doodoo" with the bounded-length
string family and `table_size = 5` succeeds, resolving `num_hashes = 2`,
which is within the applicable ceiling `mhash_worst_case 2 = 2`. -/
theorem c8_scenario_b :
    mhash_init false false false 5 scenarioB_keys mhash_str_prefix =
      (MHASH_OK, some ⟨[0, MHASH_EMPTY_SLOT, MHASH_EMPTY_SLOT, 1, MHASH_EMPTY_SLOT], 5, 2, 2,
        mhash_str_prefix⟩) ∧
    1 ≤ 2 ∧ 2 ≤ mhash_worst_case scenarioB_keys.length := by
  refine ⟨rfl, by decide, by decide⟩

/-- C10: with the default configuration (ceiling capped by the element
count), `mhash_init` over an empty key set and valid arguments returns
`MHASH_FAILED`, leaving every slot equal to the empty sentinel and
`num_hashes = 0`. -/
theorem c10_empty_key_set {α : Type} (hash_func : α → Nat → Nat) (ts : Nat) (hts : 0 < ts) :
    mhash_init false false false ts ([] : List α) hash_func =
      (MHASH_FAILED, some ⟨List.replicate ts MHASH_EMPTY_SLOT, ts, 0, 0, hash_func⟩) := by
  rw [mhash_init_valid ts [] hash_func hts]
  rfl

/-- C10 witness: a concrete empty-key-set construction fails with a cleared
three-slot table. -/
theorem c10_empty_key_set_witness :
    mhash_init false false false 3 ([] : List Nat) (fun _ _ => 0) =
      (MHASH_FAILED, some ⟨List.replicate 3 MHASH_EMPTY_SLOT, 3, 0, 0, fun _ _ => 0⟩) :=
  c10_empty_key_set (fun _ _ => 0) 3 (by decide)

/-- C1: for every successful construction over pairwise-distinct keys with
`table_size > 0`, the slot addressed by the construction key of dense id `i`
(combined hash under the resolved `num_hashes`, reduced mod `table_size`)
stores exactly `i`; slots of distinct construction keys are pairwise
distinct; and verified lookup on that key returns the pointer to its
associated value (byte offset `i * sizeof_value`). -/
theorem c1_construction_roundtrip {α : Type} [Inhabited α]
    (hash_func : α → Nat → Nat) (ts : Nat) (keys : List α) (ph : MHash α)
    (hdist : keys.Pairwise (· ≠ ·))
    (hts : 0 < ts) (hcount : keys.length ≤ MHASH_EMPTY_SLOT)
    (hinit : mhash_init false false false ts keys hash_func = (MHASH_OK, some ph))
    (sizeof_value : Nat) (cmp_func : α → α → Int)
    (hcmp : ∀ x : α, cmp_func x x = 0) :
    (∀ i (hi : i < keys.length),
      ph.table.getD (mhash__concat hash_func ph.num_hashes (keys.get ⟨i, hi⟩) % ts)
        MHASH_EMPTY_SLOT = i) ∧
    (∀ i j (hi : i < keys.length) (hj : j < keys.length), i ≠ j →
      mhash__concat hash_func ph.num_hashes (keys.get ⟨i, hi⟩) % ts
        ≠ mhash__concat hash_func ph.num_hashes (keys.get ⟨j, hj⟩) % ts) ∧
    (∀ i (hi : i < keys.length),
      mhash_check_at ph (keys.get ⟨i, hi⟩) keys sizeof_value cmp_func
        = some (i * sizeof_value)) := by
  rw [mhash_init_valid ts keys hash_func hts] at hinit
  simp only [Prod.mk.injEq, Option.some.injEq] at hinit
  obtain ⟨hst, hph⟩ := hinit
  obtain ⟨hlt, hle, hplace⟩ := mhash__loop_ok hash_func ts keys (mhash_worst_case keys.length) 0
    (mhash__loop hash_func ts keys 0 (mhash_worst_case keys.length)).1
    (mhash__loop hash_func ts keys 0 (mhash_worst_case keys.length)).2.1
    (mhash__loop hash_func ts keys 0 (mhash_worst_case keys.length)).2.2
    rfl hst
  obtain ⟨htlen, _, hplaced⟩ := mhash__place_sound hash_func
    (mhash__loop hash_func ts keys 0 (mhash_worst_case keys.length)).2.1 ts hts keys 0
    (List.replicate ts MHASH_EMPTY_SLOT)
    (mhash__loop hash_func ts keys 0 (mhash_worst_case keys.length)).2.2 hplace
    (List.length_replicate ts MHASH_EMPTY_SLOT) (by omega)
  have htab : (mhash__loop hash_func ts keys 0 (mhash_worst_case keys.length)).2.2 = ph.table :=
    congrArg MHash.table hph
  have hnh : (mhash__loop hash_func ts keys 0 (mhash_worst_case keys.length)).2.1
      = ph.num_hashes := congrArg MHash.num_hashes hph
  have hsz : ts = ph.table_size := congrArg MHash.table_size hph
  have hhf : hash_func = ph.hash_func := congrArg MHash.hash_func hph
  have hplaced' : ∀ i (hi : i < keys.length),
      ph.table.getD (mhash__concat hash_func ph.num_hashes (keys.get ⟨i, hi⟩) % ts)
        MHASH_EMPTY_SLOT = i := by
    intro i hi
    have h0 := hplaced i hi
    rw [htab, hnh] at h0
    simpa using h0
  refine ⟨hplaced', ?_, ?_⟩
  · intro i j hi hj hne he
    apply hne
    have e1 := hplaced' i hi
    rw [he, hplaced' j hj] at e1
    exact e1.symm
  · intro i hi
    have hiE : i ≠ MHASH_EMPTY_SLOT := Nat.ne_of_lt (lt_of_lt_of_le hi hcount)
    have hkey : keys.getD i default = keys.get ⟨i, hi⟩ := tgetD_of_lt keys i default hi
    simp only [mhash_check_at]
    rw [← hhf, ← hsz, hplaced' i hi, if_neg hiE, hkey, hcmp,
      if_neg (fun h => h rfl)]

/-- C1 witness: a concrete two-key construction where verified lookup of the
key with dense id 1 returns the value pointer at byte offset `1 * 4`. -/
theorem c1_construction_roundtrip_witness :
    mhash_check_at (⟨[0, 1], 2, 1, 2, fun (s : Nat) _ => s⟩ : MHash Nat) 1 [0, 1] 4
      (fun a b => if a = b then 0 else 1) = some 4 := by
  have h := c1_construction_roundtrip (fun (s : Nat) _ => s) 2 [0, 1]
    (⟨[0, 1], 2, 1, 2, fun (s : Nat) _ => s⟩ : MHash Nat)
    (by decide) (by decide) (by decide) rfl 4
    (fun a b => if a = b then 0 else 1) (fun x => by simp)
  exact h.2.2 1 (by decide)

/-- C3: with valid arguments and `table_size > 0`, `mhash_init` fails exactly
when no `num_hashes` in `[1, mhash_worst_case count]` is collision-free; on
failure the produced table is fully cleared to the empty sentinel; on
success the resolved `num_hashes` lies in `[1, mhash_worst_case count]`. -/
theorem c3_failure_characterization {α : Type} (hash_func : α → Nat → Nat) (ts : Nat)
    (keys : List α) (hts : 0 < ts) (hcount : keys.length ≤ MHASH_EMPTY_SLOT) :
    ((mhash_init false false false ts keys hash_func).1 = MHASH_FAILED ↔
      ∀ n, 1 ≤ n → n ≤ mhash_worst_case keys.length →
        ¬ collision_free hash_func n ts keys) ∧
    ((mhash_init false false false ts keys hash_func).1 = MHASH_FAILED →
      ∃ ph : MHash α, (mhash_init false false false ts keys hash_func).2 = some ph ∧
        ph.table = List.replicate ts MHASH_EMPTY_SLOT) ∧
    ((mhash_init false false false ts keys hash_func).1 = MHASH_OK →
      ∃ ph : MHash α, (mhash_init false false false ts keys hash_func).2 = some ph ∧
        1 ≤ ph.num_hashes ∧ ph.num_hashes ≤ mhash_worst_case keys.length) := by
  have hL1 : (mhash_init false false false ts keys hash_func).1
      = (mhash__loop hash_func ts keys 0 (mhash_worst_case keys.length)).1 := by
    rw [mhash_init_valid ts keys hash_func hts]
  have hL2 : (mhash_init false false false ts keys hash_func).2
      = some ⟨(mhash__loop hash_func ts keys 0 (mhash_worst_case keys.length)).2.2, ts,
          (mhash__loop hash_func ts keys 0 (mhash_worst_case keys.length)).2.1,
          keys.length, hash_func⟩ := by
    rw [mhash_init_valid ts keys hash_func hts]
  rw [hL1, hL2]
  refine ⟨⟨?_, ?_⟩, ?_, ?_⟩
  · intro hfail
    obtain ⟨_, _, hall⟩ := mhash__loop_failed hash_func ts keys
      (mhash_worst_case keys.length) 0
      (mhash__loop hash_func ts keys 0 (mhash_worst_case keys.length)).1
      (mhash__loop hash_func ts keys 0 (mhash_worst_case keys.length)).2.1
      (mhash__loop hash_func ts keys 0 (mhash_worst_case keys.length)).2.2
      rfl hfail
    intro n h1 h2 hcf
    obtain ⟨t, ht⟩ := (mhash__place_succeeds_iff hash_func n ts keys hts hcount).mpr hcf
    rw [hall n (by omega) (by omega)] at ht
    exact Option.noConfusion ht
  · intro hall
    apply mhash__loop_all_fail
    intro m h1 h2
    cases hp : mhash__place hash_func m ts keys 0 (List.replicate ts MHASH_EMPTY_SLOT) with
    | none => rfl
    | some t =>
      exact absurd ((mhash__place_succeeds_iff hash_func m ts keys hts hcount).mp ⟨t, hp⟩)
        (hall m (by omega) (by omega))
  · intro hfail
    obtain ⟨_, h2, _⟩ := mhash__loop_failed hash_func ts keys
      (mhash_worst_case keys.length) 0
      (mhash__loop hash_func ts keys 0 (mhash_worst_case keys.length)).1
      (mhash__loop hash_func ts keys 0 (mhash_worst_case keys.length)).2.1
      (mhash__loop hash_func ts keys 0 (mhash_worst_case keys.length)).2.2
      rfl hfail
    exact ⟨_, rfl, h2⟩
  · intro hok
    obtain ⟨h1, h2, _⟩ := mhash__loop_ok hash_func ts keys
      (mhash_worst_case keys.length) 0
      (mhash__loop hash_func ts keys 0 (mhash_worst_case keys.length)).1
      (mhash__loop hash_func ts keys 0 (mhash_worst_case keys.length)).2.1
      (mhash__loop hash_func ts keys 0 (mhash_worst_case keys.length)).2.2
      rfl hok
    refine ⟨_, rfl, ?_, ?_⟩
    · show 1 ≤ (mhash__loop hash_func ts keys 0 (mhash_worst_case keys.length)).2.1
      omega
    · show (mhash__loop hash_func ts keys 0 (mhash_worst_case keys.length)).2.1
        ≤ mhash_worst_case keys.length
      omega

/-- C3 witness: the two-key identity-hash construction over two slots, where
all three conjuncts are discharged at a concrete input. -/
theorem c3_failure_characterization_witness :
    (((mhash_init false false false 2 [0, 1] (fun (s : Nat) _ => s)).1 = MHASH_FAILED ↔
      ∀ n, 1 ≤ n → n ≤ mhash_worst_case ([0, 1] : List Nat).length →
        ¬ collision_free (fun (s : Nat) _ => s) n 2 [0, 1]) ∧
    ((mhash_init false false false 2 [0, 1] (fun (s : Nat) _ => s)).1 = MHASH_FAILED →
      ∃ ph : MHash Nat, (mhash_init false false false 2 [0, 1] (fun (s : Nat) _ => s)).2
          = some ph ∧
        ph.table = List.replicate 2 MHASH_EMPTY_SLOT) ∧
    ((mhash_init false false false 2 [0, 1] (fun (s : Nat) _ => s)).1 = MHASH_OK →
      ∃ ph : MHash Nat, (mhash_init false false false 2 [0, 1] (fun (s : Nat) _ => s)).2
          = some ph ∧
        1 ≤ ph.num_hashes ∧ ph.num_hashes ≤ mhash_worst_case ([0, 1] : List Nat).length)) :=
  c3_failure_characterization (fun (s : Nat) _ => s) 2 [0, 1] (by decide) (by decide)

/-- C4: whenever `table_size < count`, construction fails regardless of the
hash function, by pigeonhole: `count` keys cannot occupy pairwise distinct
slots among fewer than `count`. -/
theorem c4_pigeonhole {α : Type} (hash_func : α → Nat → Nat) (ts : Nat) (keys : List α)
    (hlt : ts < keys.length) (hcount : keys.length ≤ MHASH_EMPTY_SLOT) :
    (mhash_init false false false ts keys hash_func).1 = MHASH_FAILED := by
  by_cases hts : ts = 0
  · subst hts
    rfl
  · have hts' : 0 < ts := Nat.pos_of_ne_zero hts
    have hL1 : (mhash_init false false false ts keys hash_func).1
        = (mhash__loop hash_func ts keys 0 (mhash_worst_case keys.length)).1 := by
      rw [mhash_init_valid ts keys hash_func hts']
    rw [hL1]
    apply mhash__loop_all_fail
    intro m _ _
    cases hp : mhash__place hash_func m ts keys 0 (List.replicate ts MHASH_EMPTY_SLOT) with
    | none => rfl
    | some t =>
      exfalso
      obtain ⟨_, _, hplaced⟩ := mhash__place_sound hash_func m ts hts' keys 0 _ t hp
        (List.length_replicate ts MHASH_EMPTY_SLOT) (by omega)
      have hinj : Function.Injective (fun i : Fin keys.length =>
          (⟨mhash__concat hash_func m (keys.get i) % ts, Nat.mod_lt _ hts'⟩ : Fin ts)) := by
        intro a b hab
        have hval : mhash__concat hash_func m (keys.get a) % ts
            = mhash__concat hash_func m (keys.get b) % ts := congrArg Fin.val hab
        have e1 : t.getD (mhash__concat hash_func m (keys.get a) % ts) MHASH_EMPTY_SLOT
            = 0 + a.1 := hplaced a.1 a.2
        have e2 : t.getD (mhash__concat hash_func m (keys.get b) % ts) MHASH_EMPTY_SLOT
            = 0 + b.1 := hplaced b.1 b.2
        rw [hval, e2] at e1
        exact Fin.ext (by omega)
      have hcard := Fintype.card_le_of_injective _ hinj
      simp only [Fintype.card_fin] at hcard
      omega

/-- C4 witness: two keys into a single slot always fail. -/
theorem c4_pigeonhole_witness :
    (mhash_init false false false 1 [0, 1] (fun (s : Nat) _ => s)).1 = MHASH_FAILED :=
  c4_pigeonhole (fun (s : Nat) _ => s) 1 [0, 1] (by decide) (by decide)

/-- C9: `mhash_init` is a total function whose construction is bounded: the
resolved `num_hashes` (which counts the trials run, each trial incrementing
it once) never exceeds the capped ceiling, and every trial rewrites exactly
`table_size` slots; each query's combined hash is the fold of the list of
family evaluations at `hash_id = 1..num_hashes`, a list of length exactly
`num_hashes`. -/
theorem c9_bounded_construction {α : Type} (hash_func : α → Nat → Nat) (ts : Nat)
    (keys : List α) :
    (∀ (st : Nat) (ph : MHash α),
      mhash_init false false false ts keys hash_func = (st, some ph) →
      ph.num_hashes ≤ mhash_worst_case keys.length ∧ ph.table.length = ts) ∧
    (∀ (num_hashes : Nat) (s : α),
      mhash__concat hash_func num_hashes s =
        ((List.range' 1 num_hashes).map (fun hash_id => hash_func s hash_id)).foldl
          (fun c p => c ^^^ p) 0 ∧
      ((List.range' 1 num_hashes).map (fun hash_id => hash_func s hash_id)).length
        = num_hashes) := by
  constructor
  · intro st ph hinit
    by_cases hts : ts = 0
    · subst hts
      have hred : mhash_init false false false 0 keys hash_func = (MHASH_FAILED, none) := rfl
      rw [hred] at hinit
      simp at hinit
    · have hts' : 0 < ts := Nat.pos_of_ne_zero hts
      rw [mhash_init_valid ts keys hash_func hts'] at hinit
      simp only [Prod.mk.injEq, Option.some.injEq] at hinit
      obtain ⟨_, hph⟩ := hinit
      have hnh := congrArg MHash.num_hashes hph
      have htab := congrArg MHash.table hph
      constructor
      · rw [← hnh]
        have hb := mhash__loop_num_hashes_le hash_func ts keys (mhash_worst_case keys.length) 0
        show (mhash__loop hash_func ts keys 0 (mhash_worst_case keys.length)).2.1
          ≤ mhash_worst_case keys.length
        omega
      · rw [← htab]
        show (mhash__loop hash_func ts keys 0 (mhash_worst_case keys.length)).2.2.length = ts
        exact mhash__loop_table_length hash_func ts keys (mhash_worst_case keys.length) 0
  · intro num_hashes s
    constructor
    · rw [mhash__concat, List.foldl_map]
    · rw [List.length_map, List.length_range']

/-- C9 witness: a concrete successful construction respects the trial bound
and table length. -/
theorem c9_bounded_construction_witness :
    (⟨[0, 1], 2, 1, 2, fun (s : Nat) _ => s⟩ : MHash Nat).num_hashes
        ≤ mhash_worst_case ([0, 1] : List Nat).length ∧
      (⟨[0, 1], 2, 1, 2, fun (s : Nat) _ => s⟩ : MHash Nat).table.length = 2 :=
  (c9_bounded_construction (fun (s : Nat) _ => s) 2 [0, 1]).1 MHASH_OK
    (⟨[0, 1], 2, 1, 2, fun (s : Nat) _ => s⟩ : MHash Nat) rfl
